import Mathlib

/-!
# hades-fl: encrypted matrix-vector kernel of `main.go`

A shallow embedding of the plaintext slot-layout helpers (`flatten2DArrayCol`,
`repeatArray`) and of the evaluator section of `main` (multiply, three chained
rotations by one slot, three additions, read-out of slots 0, 4, 8, 12).

Modelling conventions:
* `float64` slot values are elements of an arbitrary commutative semiring `R`
  (exact arithmetic); data-movement helpers are polymorphic in the element type.
* a Go run-time panic (index out of range, slice bounds, encoder error) is `none`.
* Go's `int` is the 64-bit two's-complement integer: the products `n*k`, `i*n` and
  `(i+1)*n` of `repeatArray` are reduced by `wrap64`; list lengths and indices that
  cannot overflow are natural numbers.  Limits of the allocator are not modelled.
* a ciphertext is the list of its `N` slots; encryption, decryption and decoding are
  the identity on slots; `RotateNew ct r` is the cyclic left shift by `r` slots; the
  evaluator calls themselves do not fail (the rotation key for offset 1 is generated
  at line 57).
* every evaluator call appends one entry to an operation log that is threaded
  through the evaluator section of `main`.
-/

namespace HadesFL

/-! ## Slot layout helpers (`main.go`, lines 143-168) -/

/-- Column-major flattening, `flatten2DArrayCol` of `main.go`.
An empty outer slice gives the empty result.  Otherwise `rows = len(arr)`,
`cols = len(arr[0])` and the two nested loops append `arr[row][col]`;
the access `arr[row][col]` panics when `col` is out of range for `arr[row]`. -/
def flatten2DArrayCol {α : Type} (arr : List (List α)) : Option (List α) :=
  if arr.length = 0 then
    some []
  else
    let rows := arr.length
    let cols := (arr.headD []).length
    (List.range cols).foldlM (fun result col =>
      (List.range rows).foldlM (fun result row =>
        (arr[row]?).bind fun r => (r[col]?).map fun x => result ++ [x]) result) []

/-- Row-major flattening, `flatten2DArrayRow` of `main.go` (unused by `main`). -/
def flatten2DArrayRow {α : Type} (arr : List (List α)) : List α :=
  arr.foldl (fun result row => result ++ row) []

/-- Reduction of an integer to Go's 64-bit `int` (two's complement, range
`-2^63 .. 2^63 - 1`), applied to the results of `int` multiplications. -/
def wrap64 (x : Int) : Int :=
  (x + 9223372036854775808) % 18446744073709551616 - 9223372036854775808

/-- Go's `copy(dst[lo:hi], src)`: the slice expression panics unless
`0 ≤ lo ≤ hi ≤ len(dst)`; `copy` then overwrites the first
`min (hi - lo) (len src)` elements of the window. -/
def copySlice {α : Type} (dst : List α) (lo hi : Int) (src : List α) : Option (List α) :=
  if 0 ≤ lo ∧ lo ≤ hi ∧ hi ≤ dst.length then
    some (dst.take lo.toNat ++ src.take (hi - lo).toNat
      ++ dst.drop (lo.toNat + min (hi - lo).toNat src.length))
  else
    none

/-- The loop `for i := 0; i < k; i++ { copy(result[i*n:(i+1)*n], arr) }` of
`repeatArray`, with `m` iterations left and the current values of `i` and `result`. -/
def repeatLoop {α : Type} (arr : List α) (n : Int) : Nat → Int → List α → Option (List α)
  | 0, _, result => some result
  | m + 1, i, result =>
    (copySlice result (wrap64 (i * n)) (wrap64 ((i + 1) * n)) arr).bind fun result =>
      repeatLoop arr n m (i + 1) result

/-- Vector tiling, `repeatArray` of `main.go`: `make([]float64, n*k)` panics on a
negative length and gives a zero slice otherwise; the loop then runs for
`i = 0, ..., k-1` (not at all when `k ≤ 0`) and overwrites the window
`[i*n, (i+1)*n)` by `arr`. -/
def repeatArray {α : Type} [Zero α] (arr : List α) (k : Int) : Option (List α) :=
  let n : Int := arr.length
  let len := wrap64 (n * k)
  if len < 0 then
    none
  else
    repeatLoop arr n k.toNat 0 (List.replicate len.toNat 0)

/-! ## Backend operations used by `main` -/

/-- Evaluator calls, as recorded in the operation log. -/
inductive EvalOp where
  | MulRelinNew
  | Rescale
  | RotateNew (rot : Nat)
  | Add
  deriving DecidableEq

/-- The encoder's `Encode` into a plaintext of `N` slots: more than `N` values is an
error, fewer are zero-padded. -/
def Encode {R : Type} [Zero R] (N : Nat) (values : List R) : Option (List R) :=
  if values.length ≤ N then some (values ++ List.replicate (N - values.length) 0) else none

/-- The evaluator's `MulRelinNew`: slot-wise product. -/
def Evaluator.MulRelinNew {R : Type} [CommSemiring R] (op0 op1 : List R) (log : List EvalOp) :
    List R × List EvalOp :=
  (List.zipWith (fun x y => x * y) op0 op1, log ++ [EvalOp.MulRelinNew])

/-- The evaluator's `RotateNew`: cyclic left shift of the slots by `rot`.  `main` sets
`rot := 1` (line 47) and generates the key for that offset; the comment at line 49
speaks of 5 positions, the code rotates by 1. -/
def Evaluator.RotateNew {R : Type} (ct : List R) (rot : Nat) (log : List EvalOp) :
    List R × List EvalOp :=
  (ct.rotate rot, log ++ [EvalOp.RotateNew rot])

/-- The evaluator's `Add(op0, op1, opOut)`: slot-wise sum, returned as the new value
of `opOut`. -/
def Evaluator.Add {R : Type} [CommSemiring R] (op0 op1 : List R) (log : List EvalOp) :
    List R × List EvalOp :=
  (List.zipWith (fun x y => x + y) op0 op1, log ++ [EvalOp.Add])

/-! ## The evaluator section of `main` (lines 93-115) -/

/-- The rotate-and-add reduction of `main` (lines 98-115):
`ct2 = rot(ct,1)`, `ct3 = rot(ct2,1)`, `ct4 = rot(ct3,1)`, then
`ct = ct + ct2`, `ct = ct + ct3`, `ct = ct + ct4`. -/
def mainReduce {R : Type} [CommSemiring R] (ct : List R) (log : List EvalOp) :
    List R × List EvalOp :=
  let rot := 1
  let (ct2, log) := Evaluator.RotateNew ct rot log
  let (ct3, log) := Evaluator.RotateNew ct2 rot log
  let (ct4, log) := Evaluator.RotateNew ct3 rot log
  let (ct, log) := Evaluator.Add ct ct2 log
  let (ct, log) := Evaluator.Add ct ct3 log
  let (ct, log) := Evaluator.Add ct ct4 log
  (ct, log)

/-- Lines 93-115 of `main`: the product `MulRelinNew(ctVect, ctMat)` followed by the
rotate-and-add reduction, starting from an empty operation log. -/
def mainEval {R : Type} [CommSemiring R] (ctVect ctMat : List R) : List R × List EvalOp :=
  let (ct, log) := Evaluator.MulRelinNew ctVect ctMat []
  mainReduce ct log

/-- Lines 59-115 of `main` for a matrix `Mat` and a vector `vect` (the two literals of
lines 59-60 taken as parameters), with `N = params.MaxSlots()`: layout, encoding,
encryption and the evaluator section.  The result is the final ciphertext `ct`
together with the operation log. -/
def mainRun {R : Type} [CommSemiring R] (N : Nat) (Mat : List (List R)) (vect : List R) :
    Option (List R × List EvalOp) := do
  let k : Int := Mat.length
  let flatMatrix ← flatten2DArrayCol Mat
  let repeatedVect ← repeatArray vect k
  let ptMat ← Encode N flatMatrix
  let ptVect ← Encode N repeatedVect
  let ctMat := ptMat
  let ctVect := ptVect
  some (mainEval ctVect ctMat)

/-- The decoded slot vector `have` of `main` (lines 118-126): decryption and decoding
of the final ciphertext. -/
def mainHave {R : Type} [CommSemiring R] (N : Nat) (Mat : List (List R)) (vect : List R) :
    Option (List R) :=
  (mainRun N Mat vect).map fun out => out.1

/-- The evaluator calls issued by `main` between encryption and decryption, in order. -/
def mainOps {R : Type} [CommSemiring R] (N : Nat) (Mat : List (List R)) (vect : List R) :
    Option (List EvalOp) :=
  (mainRun N Mat vect).map fun out => out.2

/-- The values taken by `i` in `for i := 0; i < 13; i += 4`. -/
def printedSlots : List Nat := (List.range 13).filter fun i => i % 4 = 0

/-- The values printed by `main` (lines 130-132): `have[i]` for `i = 0, 4, 8, 12`. -/
def mainResult {R : Type} [CommSemiring R] (N : Nat) (Mat : List (List R)) (vect : List R) :
    Option (List R) := do
  let haveSlots ← mainHave N Mat vect
  printedSlots.mapM fun i => haveSlots[i]?

/-- The matrix literal of line 59. -/
def Mat0 : List (List ℤ) := [[0, 1, 2, 3], [4, 5, 6, 7], [8, 9, 10, 11], [12, 13, 14, 15]]

/-- The vector literal of line 60. -/
def vect0 : List ℤ := [1, 2, 3, 4]

/-! ## Reference notions the program is compared with -/

/-- The entry `arr[row][col]`, when both indices are in range. -/
def cell {α : Type} (arr : List (List α)) (row col : Nat) : Option α :=
  (arr[row]?).bind fun r => r[col]?

/-- The column dot product `Σ_{r<k} M[r][c] * v[r]`. -/
def columnDot {R : Type} [CommSemiring R] (M : List (List R)) (v : List R) (k c : Nat) : R :=
  ((List.range k).map fun r => (cell M r c).getD 0 * v[r]?.getD 0).sum

/-- The sum `Σ_{r<k} p[⌊j/k⌋*k + r]` of the block of width `k` that contains slot `j`. -/
def blockSum {R : Type} [CommSemiring R] (k : Nat) (p : List R) (j : Nat) : R :=
  ((List.range k).map fun r => p[j / k * k + r]?.getD 0).sum

/-- The cyclic window sum `Σ_{i<k} p[(j+i) mod N]`, `N` the number of slots. -/
def windowSum {R : Type} [CommSemiring R] (k : Nat) (p : List R) (j : Nat) : R :=
  ((List.range k).map fun i => p[(j + i) % p.length]?.getD 0).sum

/-- The inverse layout map, written from the specification: a `k × n` matrix rebuilt
from a flat sequence by `M'[row][col] = s[col*k + row]`; an index outside `s` gives
no matrix. -/
def unflatten {α : Type} (k n : Nat) (s : List α) : Option (List (List α)) :=
  (List.range k).mapM fun row => (List.range n).mapM fun col => s[col * k + row]?

/-- The linear-scan reducer, written from the specification: `acc = ctProd`; for `i`
in `1 .. k-1`: `rotated = rotate(ctProd, i*step)`, `acc = add(acc, rotated)`. -/
def rotateSumLinearScan {R : Type} [CommSemiring R] (k step : Nat) (ctProd : List R) :
    List R :=
  (List.range' 1 (k - 1)).foldl
    (fun acc i => List.zipWith (fun x y => x + y) acc (ctProd.rotate (i * step))) ctProd

/-- The operation order written in the specification: multiply-relinearize, rescale,
then the pair (rotate, add) repeated `k - 1` times. -/
def specOpSequence (k : Nat) : List EvalOp :=
  [EvalOp.MulRelinNew, EvalOp.Rescale]
    ++ (List.replicate (k - 1) [EvalOp.RotateNew 1, EvalOp.Add]).flatten

/-! ## Auxiliary definitions used in the proofs -/

/-- One column of a matrix, read top to bottom over the first `rows` rows. -/
def columnCells {α : Type} (arr : List (List α)) (rows col : Nat) : List α :=
  (List.range rows).filterMap fun row => cell arr row col

/-- The inner loop of `flatten2DArrayCol` started from `[]`. -/
def flattenColumn {α : Type} (arr : List (List α)) (col : Nat) : Option (List α) :=
  (List.range arr.length).foldlM
    (fun acc i => (cell arr i col).map fun x => acc ++ [x]) []

/-- Slot `i` of the product ciphertext for a `k × k` matrix: inside the payload it is
`vect[i % k] * Mat[i % k][i / k]`, in the zero padding it is `0`. -/
def productAt {R : Type} [CommSemiring R] (M : List (List R)) (v : List R) (k i : Nat) : R :=
  if i < k * k then v[i % k]?.getD 0 * (cell M (i % k) (i / k)).getD 0 else 0

/-! ## Auxiliary lemmas on loops that append -/

section Loops

variable {ι α : Type}

theorem filterMap_length_of_isSome (f : ι → Option α) (l : List ι)
    (h : ∀ i ∈ l, (f i).isSome) : (l.filterMap f).length = l.length := by
  induction l with
  | nil => rfl
  | cons a t ih =>
    obtain ⟨x, hx⟩ := Option.isSome_iff_exists.1 (h a (List.mem_cons_self a t))
    have ht : ∀ i ∈ t, (f i).isSome := fun i hi => h i (List.mem_cons_of_mem a hi)
    simp [List.filterMap_cons, hx, ih ht]

theorem filterMap_getElem?_of_isSome (f : ι → Option α) (l : List ι)
    (h : ∀ i ∈ l, (f i).isSome) (r : Nat) : (l.filterMap f)[r]? = (l[r]?).bind f := by
  induction l generalizing r with
  | nil => simp
  | cons a t ih =>
    obtain ⟨x, hx⟩ := Option.isSome_iff_exists.1 (h a (List.mem_cons_self a t))
    have ht : ∀ i ∈ t, (f i).isSome := fun i hi => h i (List.mem_cons_of_mem a hi)
    cases r with
    | zero => simp [List.filterMap_cons, hx]
    | succ r => simp [List.filterMap_cons, hx, ih ht]

/-- A loop whose body appends one looked-up element succeeds when every look-up does. -/
theorem foldlM_snoc_of_isSome (f : ι → Option α) (l : List ι) (init : List α)
    (h : ∀ i ∈ l, (f i).isSome) :
    l.foldlM (fun acc i => (f i).map fun x => acc ++ [x]) init
      = some (init ++ l.filterMap f) := by
  induction l generalizing init with
  | nil => simp
  | cons a t ih =>
    obtain ⟨x, hx⟩ := Option.isSome_iff_exists.1 (h a (List.mem_cons_self a t))
    have ht : ∀ i ∈ t, (f i).isSome := fun i hi => h i (List.mem_cons_of_mem a hi)
    simp [List.foldlM_cons, hx, ih _ ht, List.filterMap_cons]

/-- A loop whose body appends one looked-up element fails exactly when a look-up fails. -/
theorem foldlM_snoc_eq_none (f : ι → Option α) (l : List ι) (init : List α) :
    l.foldlM (fun acc i => (f i).map fun x => acc ++ [x]) init = none
      ↔ ∃ i ∈ l, f i = none := by
  induction l generalizing init with
  | nil => simp
  | cons a t ih =>
    cases hx : f a with
    | none => simp [List.foldlM_cons, hx]
    | some x => simp [List.foldlM_cons, hx, ih]

/-- A loop whose body appends a computed block succeeds when every block does. -/
theorem foldlM_append_of_isSome (step : List α → ι → Option (List α))
    (f : ι → Option (List α)) (hstep : ∀ acc i, step acc i = (f i).map fun xs => acc ++ xs)
    (l : List ι) (init : List α) (h : ∀ i ∈ l, (f i).isSome) :
    l.foldlM step init = some (init ++ (l.filterMap f).flatten) := by
  induction l generalizing init with
  | nil => simp
  | cons a t ih =>
    obtain ⟨x, hx⟩ := Option.isSome_iff_exists.1 (h a (List.mem_cons_self a t))
    have ht : ∀ i ∈ t, (f i).isSome := fun i hi => h i (List.mem_cons_of_mem a hi)
    simp [List.foldlM_cons, hstep, hx, ih _ ht, List.filterMap_cons]

/-- A loop whose body appends a computed block fails exactly when a block fails. -/
theorem foldlM_append_eq_none (step : List α → ι → Option (List α))
    (f : ι → Option (List α)) (hstep : ∀ acc i, step acc i = (f i).map fun xs => acc ++ xs)
    (l : List ι) (init : List α) :
    l.foldlM step init = none ↔ ∃ i ∈ l, f i = none := by
  induction l generalizing init with
  | nil => simp
  | cons a t ih =>
    cases hx : f a with
    | none => simp [List.foldlM_cons, hstep, hx]
    | some x => simp [List.foldlM_cons, hstep, hx, ih]

/-- Indexing into a concatenation of blocks of equal width. -/
theorem flatten_getElem?_of_width (k : Nat) (L : List (List α))
    (hL : ∀ x ∈ L, x.length = k) (c r : Nat) (hr : r < k) :
    L.flatten[c * k + r]? = (L[c]?).bind fun x => x[r]? := by
  induction L generalizing c with
  | nil => simp
  | cons x t ih =>
    have hx : x.length = k := hL x (List.mem_cons_self x t)
    have ht : ∀ y ∈ t, y.length = k := fun y hy => hL y (List.mem_cons_of_mem x hy)
    cases c with
    | zero =>
      simp only [List.flatten_cons, Nat.zero_mul, Nat.zero_add, List.getElem?_cons_zero,
        Option.some_bind]
      exact List.getElem?_append_left (by omega)
    | succ c =>
      have hidx : (c + 1) * k + r - x.length = c * k + r := by
        rw [hx, Nat.add_mul]; omega
      have hge : x.length ≤ (c + 1) * k + r := by
        rw [hx, Nat.add_mul]; omega
      simp only [List.flatten_cons, List.getElem?_cons_succ]
      rw [List.getElem?_append_right hge, hidx]
      exact ih ht c

theorem flatten_length_of_width (k : Nat) (L : List (List α))
    (hL : ∀ x ∈ L, x.length = k) : L.flatten.length = L.length * k := by
  induction L with
  | nil => simp
  | cons x t ih =>
    have hx : x.length = k := hL x (List.mem_cons_self x t)
    have ht : ∀ y ∈ t, y.length = k := fun y hy => hL y (List.mem_cons_of_mem x hy)
    simp [List.flatten_cons, hx, ih ht, Nat.add_mul, Nat.add_comm]

end Loops

/-! ## Lemmas on `flatten2DArrayCol` -/

section Flatten

variable {α : Type}

theorem flatten_inner_body (arr : List (List α)) (col : Nat) :
    (fun (result : List α) (row : Nat) =>
        (arr[row]?).bind fun r => (r[col]?).map fun x => result ++ [x])
      = fun acc i => (cell arr i col).map fun x => acc ++ [x] := by
  funext result row
  unfold cell
  cases arr[row]? <;> simp

theorem cell_isSome_iff (arr : List (List α)) (row col : Nat) (hrow : row < arr.length) :
    (cell arr row col).isSome ↔ col < (arr[row]).length := by
  unfold cell
  rw [List.getElem?_eq_getElem hrow]
  simp only [Option.some_bind]
  constructor
  · intro h
    by_contra hc
    rw [List.getElem?_eq_none (by omega)] at h
    simp at h
  · intro h
    rw [List.getElem?_eq_getElem h]
    rfl

theorem cell_eq_none_iff (arr : List (List α)) (row col : Nat) (hrow : row < arr.length) :
    cell arr row col = none ↔ (arr[row]).length ≤ col := by
  have h := cell_isSome_iff arr row col hrow
  rw [← Option.not_isSome_iff_eq_none, h]
  omega

theorem flatten_inner_step (arr : List (List α)) (acc : List α) (col : Nat) :
    (List.range arr.length).foldlM
        (fun acc i => (cell arr i col).map fun x => acc ++ [x]) acc
      = (flattenColumn arr col).map fun xs => acc ++ xs := by
  unfold flattenColumn
  by_cases h : ∀ i ∈ List.range arr.length, (cell arr i col).isSome
  · rw [foldlM_snoc_of_isSome _ _ _ h, foldlM_snoc_of_isSome _ _ _ h]
    simp
  · have hn : ∃ i ∈ List.range arr.length, cell arr i col = none := by
      push_neg at h
      obtain ⟨i, hi, hi2⟩ := h
      exact ⟨i, hi, by simpa using hi2⟩
    rw [(foldlM_snoc_eq_none _ _ acc).2 hn, (foldlM_snoc_eq_none _ _ []).2 hn]
    rfl

theorem flatten2DArrayCol_eq_outer (arr : List (List α)) (hne : arr.length ≠ 0) :
    flatten2DArrayCol arr
      = (List.range (arr.headD []).length).foldlM
          (fun acc col => (flattenColumn arr col).map fun xs => acc ++ xs) [] := by
  unfold flatten2DArrayCol
  rw [if_neg hne]
  simp only [flatten_inner_body, flatten_inner_step]

/-- `flatten2DArrayCol` panics exactly when some row is shorter than the first row. -/
theorem flatten2DArrayCol_eq_none_iff (arr : List (List α)) :
    flatten2DArrayCol arr = none ↔ ∃ row ∈ arr, row.length < (arr.headD []).length := by
  by_cases hne : arr.length = 0
  · have : arr = [] := List.length_eq_zero.1 hne
    subst this
    simp [flatten2DArrayCol]
  · rw [flatten2DArrayCol_eq_outer arr hne,
      foldlM_append_eq_none _ (fun col => flattenColumn arr col) (fun _ _ => rfl)]
    constructor
    · rintro ⟨col, hcol, hnone⟩
      unfold flattenColumn at hnone
      obtain ⟨row, hrow, hcell⟩ := (foldlM_snoc_eq_none _ _ _).1 hnone
      have hrow2 : row < arr.length := List.mem_range.1 hrow
      refine ⟨arr[row], List.getElem_mem hrow2, ?_⟩
      have := (cell_eq_none_iff arr row col hrow2).1 hcell
      have := List.mem_range.1 hcol
      omega
    · rintro ⟨r, hr, hlt⟩
      obtain ⟨row, hrow, rfl⟩ := List.getElem_of_mem hr
      refine ⟨arr[row].length, List.mem_range.2 hlt, ?_⟩
      unfold flattenColumn
      exact (foldlM_snoc_eq_none _ _ _).2
        ⟨row, List.mem_range.2 hrow, (cell_eq_none_iff arr row _ hrow).2 (Nat.le_refl _)⟩

theorem head_mem_of_length_pos (M : List (List α)) (h : 0 < M.length) :
    M.headD [] ∈ M := by
  cases M with
  | nil => simp at h
  | cons a t => simp

/-- In a matrix none of whose rows is shorter than `n`, every entry of the first `n`
columns exists. -/
theorem cell_isSome_of_ge (M : List (List α)) (k n : Nat) (hlen : M.length = k)
    (hge : ∀ r ∈ M, n ≤ r.length) (row col : Nat) (hrow : row < k) (hcol : col < n) :
    (cell M row col).isSome := by
  have hrow2 : row < M.length := by omega
  rw [cell_isSome_iff M row col hrow2]
  have := hge _ (List.getElem_mem hrow2)
  omega

theorem flattenColumn_of_ge (M : List (List α)) (k n : Nat) (hlen : M.length = k)
    (hge : ∀ r ∈ M, n ≤ r.length) (col : Nat) (hcol : col < n) :
    flattenColumn M col = some (columnCells M k col) := by
  unfold flattenColumn columnCells
  rw [hlen, foldlM_snoc_of_isSome]
  · simp
  · intro i hi
    exact cell_isSome_of_ge M k n hlen hge i col (List.mem_range.1 hi) hcol

/-- Closed form of `flatten2DArrayCol` on a non-empty matrix whose first row has length
`n` and none of whose rows is shorter: the concatenation of its first `n` columns. -/
theorem flatten2DArrayCol_of_ge (M : List (List α)) (k n : Nat) (hk : 0 < k)
    (hlen : M.length = k) (hhead : (M.headD []).length = n)
    (hge : ∀ r ∈ M, n ≤ r.length) :
    flatten2DArrayCol M
      = some ((List.range n).map fun col => columnCells M k col).flatten := by
  have hne : M.length ≠ 0 := by omega
  rw [flatten2DArrayCol_eq_outer M hne, hhead,
    foldlM_append_of_isSome _ (fun col => flattenColumn M col) (fun _ _ => rfl)]
  · have hcongr : (List.range n).filterMap (fun col => flattenColumn M col)
        = (List.range n).filterMap (fun col => some (columnCells M k col)) := by
      apply List.filterMap_congr
      intro col hcol
      exact flattenColumn_of_ge M k n hlen hge col (List.mem_range.1 hcol)
    have hmap : (List.range n).filterMap (fun col => some (columnCells M k col))
        = (List.range n).map (fun col => columnCells M k col) :=
      List.filterMap_eq_map (fun col => columnCells M k col) ▸ rfl
    rw [hcongr, hmap, List.nil_append]
  · intro col hcol
    rw [flattenColumn_of_ge M k n hlen hge col (List.mem_range.1 hcol)]
    rfl

theorem columnCells_length_of_ge (M : List (List α)) (k n : Nat) (hlen : M.length = k)
    (hge : ∀ r ∈ M, n ≤ r.length) (col : Nat) (hcol : col < n) :
    (columnCells M k col).length = k := by
  unfold columnCells
  rw [filterMap_length_of_isSome, List.length_range]
  intro i hi
  exact cell_isSome_of_ge M k n hlen hge i col (List.mem_range.1 hi) hcol

theorem columnCells_getElem?_of_ge (M : List (List α)) (k n : Nat) (hlen : M.length = k)
    (hge : ∀ r ∈ M, n ≤ r.length) (row col : Nat) (hrow : row < k) (hcol : col < n) :
    (columnCells M k col)[row]? = cell M row col := by
  unfold columnCells
  rw [filterMap_getElem?_of_isSome]
  · simp [List.getElem?_range hrow]
  · intro i hi
    exact cell_isSome_of_ge M k n hlen hge i col (List.mem_range.1 hi) hcol

/-- Index form of the column-major layout: slot `col * k + row` of the concatenated
columns is the entry `M[row][col]`. -/
theorem columns_getElem?_of_ge (M : List (List α)) (k n : Nat) (hlen : M.length = k)
    (hge : ∀ r ∈ M, n ≤ r.length) (row col : Nat) (hrow : row < k) (hcol : col < n) :
    ((List.range n).map fun col => columnCells M k col).flatten[col * k + row]?
      = cell M row col := by
  rw [flatten_getElem?_of_width k _ _ col row hrow]
  · simp [List.getElem?_range hcol,
      columnCells_getElem?_of_ge M k n hlen hge row col hrow hcol]
  · intro x hx
    obtain ⟨c, hc, rfl⟩ := List.mem_map.1 hx
    exact columnCells_length_of_ge M k n hlen hge c (List.mem_range.1 hc)

theorem columns_length_of_ge (M : List (List α)) (k n : Nat) (hlen : M.length = k)
    (hge : ∀ r ∈ M, n ≤ r.length) :
    ((List.range n).map fun col => columnCells M k col).flatten.length = k * n := by
  rw [flatten_length_of_width k]
  · simp [Nat.mul_comm]
  · intro x hx
    obtain ⟨c, hc, rfl⟩ := List.mem_map.1 hx
    exact columnCells_length_of_ge M k n hlen hge c (List.mem_range.1 hc)

theorem cell_isSome_of_rect (M : List (List α)) (k n : Nat) (hlen : M.length = k)
    (hrect : ∀ r ∈ M, r.length = n) (row col : Nat) (hrow : row < k) (hcol : col < n) :
    (cell M row col).isSome :=
  cell_isSome_of_ge M k n hlen (fun r hr => Nat.le_of_eq (hrect r hr).symm) row col hrow hcol

/-- Closed form of `flatten2DArrayCol` on a non-empty rectangular matrix: the
concatenation of its columns. -/
theorem flatten2DArrayCol_of_rect (M : List (List α)) (k n : Nat) (hk : 0 < k)
    (hlen : M.length = k) (hrect : ∀ r ∈ M, r.length = n) :
    flatten2DArrayCol M
      = some ((List.range n).map fun col => columnCells M k col).flatten :=
  flatten2DArrayCol_of_ge M k n hk hlen (hrect _ (head_mem_of_length_pos M (by omega)))
    (fun r hr => Nat.le_of_eq (hrect r hr).symm)

theorem columns_getElem? (M : List (List α)) (k n : Nat) (hlen : M.length = k)
    (hrect : ∀ r ∈ M, r.length = n) (row col : Nat) (hrow : row < k) (hcol : col < n) :
    ((List.range n).map fun col => columnCells M k col).flatten[col * k + row]?
      = cell M row col :=
  columns_getElem?_of_ge M k n hlen (fun r hr => Nat.le_of_eq (hrect r hr).symm) row col
    hrow hcol

theorem columns_length (M : List (List α)) (k n : Nat) (hlen : M.length = k)
    (hrect : ∀ r ∈ M, r.length = n) :
    ((List.range n).map fun col => columnCells M k col).flatten.length = k * n :=
  columns_length_of_ge M k n hlen (fun r hr => Nat.le_of_eq (hrect r hr).symm)

/-- Entries of the first `n` columns are not affected by cutting every row to length
`n`. -/
theorem cell_map_take (M : List (List α)) (n row col : Nat) (hcol : col < n) :
    cell (M.map (List.take n)) row col = cell M row col := by
  unfold cell
  rw [List.getElem?_map]
  cases M[row]? with
  | none => rfl
  | some r => simp [List.getElem?_take, hcol]

theorem columnCells_map_take (M : List (List α)) (k n col : Nat) (hcol : col < n) :
    columnCells (M.map (List.take n)) k col = columnCells M k col := by
  unfold columnCells
  apply List.filterMap_congr
  intro row _
  exact cell_map_take M n row col hcol

/-- When no row is shorter than the first row, `flatten2DArrayCol` gives the same
result as on the matrix with every row cut to the length of the first row. -/
theorem flatten2DArrayCol_map_take (M : List (List α))
    (hge : ∀ r ∈ M, (M.headD []).length ≤ r.length) :
    flatten2DArrayCol M = flatten2DArrayCol (M.map (List.take (M.headD []).length)) := by
  cases hM : M with
  | nil => rfl
  | cons a t =>
    rw [← hM]
    have hk : 0 < M.length := by rw [hM]; simp
    have hrect : ∀ r ∈ M.map (List.take (M.headD []).length),
        r.length = (M.headD []).length := by
      intro r hr
      obtain ⟨r0, hr0, rfl⟩ := List.mem_map.1 hr
      rw [List.length_take]
      exact Nat.min_eq_left (hge r0 hr0)
    rw [flatten2DArrayCol_of_ge M M.length _ hk rfl rfl hge,
      flatten2DArrayCol_of_rect (M.map (List.take (M.headD []).length)) M.length
        (M.headD []).length hk (List.length_map _ _) hrect]
    congr 2
    apply List.map_congr_left
    intro col hcol
    exact (columnCells_map_take M M.length _ col (List.mem_range.1 hcol)).symm

end Flatten

/-! ## Lemmas on `repeatArray` -/

section Repeat

variable {α : Type}

theorem wrap64_natCast (a : Nat) (h : (a : Int) < 9223372036854775808) :
    wrap64 (a : Int) = a := by
  unfold wrap64
  omega

/-- Overwriting the window that starts right after a prefix `A` with a source that
fits in the remainder `Z`. -/
theorem copySlice_append (A Z src : List α) (hfit : src.length ≤ Z.length) :
    copySlice (A ++ Z) (A.length : Int) ((A.length + src.length : Nat) : Int) src
      = some (A ++ src ++ Z.drop src.length) := by
  unfold copySlice
  have hcond : (0 : Int) ≤ (A.length : Int)
      ∧ (A.length : Int) ≤ ((A.length + src.length : Nat) : Int)
      ∧ ((A.length + src.length : Nat) : Int) ≤ ((A ++ Z).length : Int) := by
    rw [List.length_append]
    omega
  rw [if_pos hcond]
  have h0 : ((A.length : Int)).toNat = A.length := Int.toNat_natCast _
  have h1 : (((A.length + src.length : Nat) : Int) - (A.length : Int)).toNat
      = src.length := by omega
  have h2 : A.length + min src.length src.length = A.length + src.length := by simp
  rw [h0, h1, h2, List.take_left, List.take_length, List.drop_append]

theorem replicate_flatten_length (arr : List α) (i : Nat) :
    (List.replicate i arr).flatten.length = i * arr.length := by
  rw [flatten_length_of_width arr.length]
  · simp
  · intro x hx
    rw [List.eq_of_mem_replicate hx]

/-- Loop invariant of `repeatArray` when `n*K` does not overflow: once the first `i`
windows hold copies of `arr` and the rest is zero, the remaining `m = K - i`
iterations fill the slice with `K` copies of `arr`. -/
theorem repeatLoop_fill [Zero α] (arr : List α) (K : Nat)
    (hb : ((arr.length * K : Nat) : Int) < 9223372036854775808) (m i : Nat)
    (him : i + m = K) :
    repeatLoop arr (arr.length : Int) m (i : Int)
        ((List.replicate i arr).flatten ++ List.replicate (arr.length * (K - i)) 0)
      = some (List.replicate K arr).flatten := by
  induction m generalizing i with
  | zero =>
    have hi : i = K := by omega
    subst hi
    simp [repeatLoop]
  | succ m ih =>
    have hlenA : (List.replicate i arr).flatten.length = i * arr.length :=
      replicate_flatten_length arr i
    have hle : (i + 1) * arr.length ≤ arr.length * K := by
      rw [Nat.mul_comm arr.length K]
      exact Nat.mul_le_mul_right _ (by omega)
    have hle0 : i * arr.length ≤ (i + 1) * arr.length :=
      Nat.mul_le_mul_right _ (by omega)
    have hlo : wrap64 ((i : Int) * (arr.length : Int)) = ((i * arr.length : Nat) : Int) := by
      rw [← Nat.cast_mul]
      exact wrap64_natCast _ (by omega)
    have hhi : wrap64 (((i : Int) + 1) * (arr.length : Int))
        = (((i * arr.length) + arr.length : Nat) : Int) := by
      have hc : ((i : Int) + 1) * (arr.length : Int) = (((i + 1) * arr.length : Nat) : Int) := by
        push_cast
        ring
      rw [hc, wrap64_natCast _ (by omega), Nat.add_mul, Nat.one_mul]
    have hfit : arr.length ≤ (List.replicate (arr.length * (K - i)) (0 : α)).length := by
      rw [List.length_replicate]
      exact Nat.le_mul_of_pos_right _ (by omega)
    have hstep := copySlice_append (List.replicate i arr).flatten
      (List.replicate (arr.length * (K - i)) (0 : α)) arr hfit
    rw [hlenA] at hstep
    have hrest : arr.length * (K - i) - arr.length = arr.length * (K - (i + 1)) := by
      have : K - i = (K - (i + 1)) + 1 := by omega
      rw [this, Nat.mul_add, Nat.mul_one, Nat.add_sub_cancel]
    have hnext : (List.replicate i arr).flatten ++ arr
          ++ List.drop arr.length (List.replicate (arr.length * (K - i)) (0 : α))
        = (List.replicate (i + 1) arr).flatten
          ++ List.replicate (arr.length * (K - (i + 1))) 0 := by
      rw [List.drop_replicate, hrest, List.replicate_succ', List.flatten_append]
      simp
    have hcast : (i : Int) + 1 = ((i + 1 : Nat) : Int) := by push_cast; rfl
    rw [repeatLoop, hlo, hhi, hstep, Option.some_bind, hnext, hcast]
    exact ih (i + 1) (by omega)

/-- Closed form of `repeatArray` when `k ≥ 0` and `n*k` does not overflow: `k` copies
of `arr` end to end. -/
theorem repeatArray_eq [Zero α] (arr : List α) (K : Nat)
    (hb : ((arr.length * K : Nat) : Int) < 9223372036854775808) :
    repeatArray arr (K : Int) = some (List.replicate K arr).flatten := by
  have hlen : wrap64 ((arr.length : Int) * (K : Int)) = ((arr.length * K : Nat) : Int) := by
    rw [← Nat.cast_mul]
    exact wrap64_natCast _ hb
  have hnn : ¬ ((arr.length * K : Nat) : Int) < 0 := by omega
  have h := repeatLoop_fill arr K hb K 0 (by omega)
  simp only [List.replicate_zero, List.flatten_nil, List.nil_append, Nat.sub_zero,
    Nat.cast_zero] at h
  unfold repeatArray
  simp only [hlen, if_neg hnn, Int.toNat_natCast]
  exact h

theorem replicate_flatten_getElem? (arr : List α) (k i : Nat) (hi : i < arr.length * k) :
    (List.replicate k arr).flatten[i]? = arr[i % arr.length]? := by
  have hn : 0 < arr.length := by
    rcases Nat.eq_zero_or_pos arr.length with h | h
    · rw [h] at hi; simp at hi
    · exact h
  have hq : i / arr.length < k := by
    apply Nat.div_lt_of_lt_mul
    exact hi
  have hidx : i / arr.length * arr.length + i % arr.length = i := by
    rw [Nat.mul_comm]; exact Nat.div_add_mod i arr.length
  have h := flatten_getElem?_of_width arr.length (List.replicate k arr)
    (fun x hx => by rw [List.eq_of_mem_replicate hx]) (i / arr.length) (i % arr.length)
    (Nat.mod_lt _ hn)
  rw [hidx] at h
  rw [h, List.getElem?_replicate]
  simp [hq]

end Repeat

/-! ## Lemmas on the rotate-and-add reduction -/

section Reduce

variable {R : Type} [CommSemiring R]

theorem getElem?_eq_some_getD (p : List R) (i : Nat) (hi : i < p.length) :
    p[i]? = some (p[i]?.getD 0) := by
  rw [List.getElem?_eq_getElem hi]
  rfl

/-- The slot vector computed by `mainReduce`, read without the operation log. -/
theorem mainReduce_fst (p : List R) (log : List EvalOp) :
    (mainReduce p log).1
      = List.zipWith (fun x y => x + y)
          (List.zipWith (fun x y => x + y)
            (List.zipWith (fun x y => x + y) p (p.rotate 1)) (p.rotate 2)) (p.rotate 3) := by
  simp [mainReduce, Evaluator.RotateNew, Evaluator.Add, List.rotate_rotate]

/-- Every slot of the reduced vector is the cyclic sliding-window sum of four slots. -/
theorem mainReduce_getElem? (p : List R) (log : List EvalOp) (j : Nat) (hj : j < p.length) :
    (mainReduce p log).1[j]?
      = some (p[j]?.getD 0 + p[(j + 1) % p.length]?.getD 0
          + p[(j + 2) % p.length]?.getD 0 + p[(j + 3) % p.length]?.getD 0) := by
  have hpos : 0 < p.length := by omega
  rw [mainReduce_fst]
  simp only [List.getElem?_zipWith', List.getElem?_rotate hj]
  rw [getElem?_eq_some_getD p j hj,
    getElem?_eq_some_getD p _ (Nat.mod_lt (j + 1) hpos),
    getElem?_eq_some_getD p _ (Nat.mod_lt (j + 2) hpos),
    getElem?_eq_some_getD p _ (Nat.mod_lt (j + 3) hpos)]
  simp

theorem mainReduce_length (p : List R) (log : List EvalOp) :
    (mainReduce p log).1.length = p.length := by
  rw [mainReduce_fst]
  simp

end Reduce

/-! ## Lemmas on the pipeline of `main` -/

section Pipeline

variable {R : Type} [CommSemiring R]

theorem Encode_eq (N : Nat) (values : List R) (h : values.length ≤ N) :
    Encode N values = some (values ++ List.replicate (N - values.length) 0) := by
  unfold Encode
  rw [if_pos h]

theorem padded_getElem? (xs : List R) (N i : Nat) (hi : i < N) (hN : xs.length ≤ N) :
    (xs ++ List.replicate (N - xs.length) (0 : R))[i]?
      = if i < xs.length then xs[i]? else some 0 := by
  by_cases h : i < xs.length
  · rw [if_pos h, List.getElem?_append_left h]
  · rw [if_neg h, List.getElem?_append_right (by omega), List.getElem?_replicate,
      if_pos (by omega)]

/-- The decoded slot vector of `main` on a `k × k` matrix is the reduction of the
slot-wise product of the two zero-padded payloads. -/
theorem mainHave_eq (N k : Nat) (M : List (List R)) (v : List R) (hk : 0 < k)
    (hlen : M.length = k) (hrect : ∀ r ∈ M, r.length = k) (hv : v.length = k)
    (hN : k * k ≤ N) (hw : k * k < 9223372036854775808) :
    mainHave N M v
      = some (mainReduce
          (List.zipWith (fun x y => x * y)
            ((List.replicate k v).flatten ++ List.replicate (N - k * k) 0)
            (((List.range k).map fun col => columnCells M k col).flatten
              ++ List.replicate (N - k * k) 0))
          [EvalOp.MulRelinNew]).1 := by
  have hF := flatten2DArrayCol_of_rect M k k hk hlen hrect
  have hT := repeatArray_eq v k (by rw [hv]; omega)
  have hFlen := columns_length M k k hlen hrect
  have hTlen : (List.replicate k v).flatten.length = k * k := by
    rw [replicate_flatten_length, hv]
  have hEF := Encode_eq N _ (hFlen ▸ hN)
  have hET := Encode_eq N _ (hTlen ▸ hN)
  rw [hFlen] at hEF
  rw [hTlen] at hET
  unfold mainHave mainRun
  simp only [hlen, hF, hT, Option.bind_eq_bind, Option.some_bind, hEF, hET, Option.map_some']
  rfl

theorem product_getElem? (N k : Nat) (M : List (List R)) (v : List R)
    (hlen : M.length = k) (hrect : ∀ r ∈ M, r.length = k) (hv : v.length = k)
    (hN : k * k ≤ N) (i : Nat) (hi : i < N) :
    (List.zipWith (fun x y => x * y)
        ((List.replicate k v).flatten ++ List.replicate (N - k * k) 0)
        (((List.range k).map fun col => columnCells M k col).flatten
          ++ List.replicate (N - k * k) 0))[i]?
      = some (productAt M v k i) := by
  have hFlen := columns_length M k k hlen hrect
  have hTlen : (List.replicate k v).flatten.length = k * k := by
    rw [replicate_flatten_length, hv]
  have hpT := padded_getElem? (List.replicate k v).flatten N i hi (hTlen ▸ hN)
  have hpF := padded_getElem?
    ((List.range k).map fun col => columnCells M k col).flatten N i hi (hFlen ▸ hN)
  rw [hTlen] at hpT
  rw [hFlen] at hpF
  rw [List.getElem?_zipWith', hpT, hpF]
  unfold productAt
  by_cases h : i < k * k
  · have hkpos : 0 < k := by
      rcases Nat.eq_zero_or_pos k with h0 | h0
      · rw [h0] at h; simp at h
      · exact h0
    have hmod : i % k < k := Nat.mod_lt _ hkpos
    have hdiv : i / k < k := Nat.div_lt_of_lt_mul h
    have hidx : i / k * k + i % k = i := by
      rw [Nat.mul_comm]; exact Nat.div_add_mod i k
    have hTi : (List.replicate k v).flatten[i]? = v[i % k]? := by
      have := replicate_flatten_getElem? v k i (by rw [hv]; exact h)
      rw [hv] at this
      exact this
    have hFi : ((List.range k).map fun col => columnCells M k col).flatten[i]?
        = cell M (i % k) (i / k) := by
      have := columns_getElem? M k k hlen hrect (i % k) (i / k) hmod hdiv
      rw [hidx] at this
      exact this
    obtain ⟨x, hx⟩ := Option.isSome_iff_exists.1
      (cell_isSome_of_rect M k k hlen hrect (i % k) (i / k) hmod hdiv)
    have hvi : v[i % k]? = some (v[i % k]?.getD 0) :=
      getElem?_eq_some_getD v _ (by omega)
    rw [if_pos h, if_pos h, if_pos h, hTi, hFi, hx, hvi]
    simp
  · rw [if_neg h, if_neg h, if_neg h]
    simp

/-- Every decoded slot of `main` on a `k × k` matrix is a cyclic window sum of four
product slots. -/
theorem mainHave_slots (N k : Nat) (M : List (List R)) (v : List R) (hk : 0 < k)
    (hlen : M.length = k) (hrect : ∀ r ∈ M, r.length = k) (hv : v.length = k)
    (hN : k * k ≤ N) (hw : k * k < 9223372036854775808) :
    ∃ s, mainHave N M v = some s ∧ s.length = N ∧ ∀ j, j < N →
      s[j]? = some (productAt M v k j + productAt M v k ((j + 1) % N)
        + productAt M v k ((j + 2) % N) + productAt M v k ((j + 3) % N)) := by
  have hFlen := columns_length M k k hlen hrect
  have hTlen : (List.replicate k v).flatten.length = k * k := by
    rw [replicate_flatten_length, hv]
  have hplen : (List.zipWith (fun x y => x * y)
        ((List.replicate k v).flatten ++ List.replicate (N - k * k) (0 : R))
        (((List.range k).map fun col => columnCells M k col).flatten
          ++ List.replicate (N - k * k) 0)).length = N := by
    rw [List.length_zipWith, List.length_append, List.length_append, hFlen, hTlen,
      List.length_replicate]
    omega
  refine ⟨_, mainHave_eq N k M v hk hlen hrect hv hN hw, ?_, ?_⟩
  · rw [mainReduce_length, hplen]
  · intro j hj
    have hNpos : 0 < N := by omega
    rw [mainReduce_getElem? _ _ j (by rw [hplen]; exact hj), hplen,
      product_getElem? N k M v hlen hrect hv hN j hj,
      product_getElem? N k M v hlen hrect hv hN _ (Nat.mod_lt _ hNpos),
      product_getElem? N k M v hlen hrect hv hN _ (Nat.mod_lt _ hNpos),
      product_getElem? N k M v hlen hrect hv hN _ (Nat.mod_lt _ hNpos)]
    rfl

theorem columnDot_four (M : List (List R)) (v : List R) (c : Nat) :
    columnDot M v 4 c
      = v[0]?.getD 0 * (cell M 0 c).getD 0 + v[1]?.getD 0 * (cell M 1 c).getD 0
        + v[2]?.getD 0 * (cell M 2 c).getD 0 + v[3]?.getD 0 * (cell M 3 c).getD 0 := by
  have hr : List.range 4 = [0, 1, 2, 3] := by decide
  unfold columnDot
  rw [hr]
  simp only [List.map_cons, List.map_nil, List.sum_cons, List.sum_nil]
  ring

/-- On a `4 × 4` matrix the first slot of every column block holds the column dot
product. -/
theorem mainHave_four (N : Nat) (M : List (List R)) (v : List R)
    (hlen : M.length = 4) (hrect : ∀ r ∈ M, r.length = 4) (hv : v.length = 4)
    (hN : 16 ≤ N) :
    ∃ s, mainHave N M v = some s ∧ s.length = N ∧
      ∀ c, c < 4 → s[c * 4]? = some (columnDot M v 4 c) := by
  obtain ⟨s, hs, hslen, hslot⟩ :=
    mainHave_slots N 4 M v (by decide) hlen hrect hv (by omega) (by decide)
  refine ⟨s, hs, hslen, ?_⟩
  intro c hc
  have h1 : (c * 4 + 1) % N = c * 4 + 1 := Nat.mod_eq_of_lt (by omega)
  have h2 : (c * 4 + 2) % N = c * 4 + 2 := Nat.mod_eq_of_lt (by omega)
  have h3 : (c * 4 + 3) % N = c * 4 + 3 := Nat.mod_eq_of_lt (by omega)
  rw [hslot (c * 4) (by omega), h1, h2, h3, columnDot_four]
  interval_cases c <;> simp [productAt]

/-- On a `1 × 1` matrix slot 0 holds the single product, the three other slots of the
window being zero padding. -/
theorem mainHave_one (N : Nat) (M : List (List R)) (v : List R)
    (hlen : M.length = 1) (hrect : ∀ r ∈ M, r.length = 1) (hv : v.length = 1)
    (hN : 4 ≤ N) :
    ∃ s, mainHave N M v = some s ∧ s.length = N ∧
      ∀ c, c < 1 → s[c * 1]? = some (columnDot M v 1 c) := by
  obtain ⟨s, hs, hslen, hslot⟩ :=
    mainHave_slots N 1 M v (by decide) hlen hrect hv (by omega) (by decide)
  refine ⟨s, hs, hslen, ?_⟩
  intro c hc
  have hc0 : c = 0 := by omega
  subst hc0
  have h1 : (0 * 1 + 1) % N = 1 := Nat.mod_eq_of_lt (by omega)
  have h2 : (0 * 1 + 2) % N = 2 := Nat.mod_eq_of_lt (by omega)
  have h3 : (0 * 1 + 3) % N = 3 := Nat.mod_eq_of_lt (by omega)
  rw [hslot (0 * 1) (by omega), h1, h2, h3]
  simp [productAt, columnDot, mul_comm, List.range_succ]

/-- The four printed values of `main` on a `4 × 4` matrix. -/
theorem mainResult_four (N : Nat) (M : List (List R)) (v : List R)
    (hlen : M.length = 4) (hrect : ∀ r ∈ M, r.length = 4) (hv : v.length = 4)
    (hN : 16 ≤ N) :
    mainResult N M v
      = some [columnDot M v 4 0, columnDot M v 4 1, columnDot M v 4 2, columnDot M v 4 3] := by
  obtain ⟨s, hs, _, hslot⟩ := mainHave_four N M v hlen hrect hv hN
  have hp : printedSlots = [0, 4, 8, 12] := by decide
  have h0 := hslot 0 (by decide)
  have h1 := hslot 1 (by decide)
  have h2 := hslot 2 (by decide)
  have h3 := hslot 3 (by decide)
  simp only [Nat.zero_mul, Nat.one_mul, Nat.reduceMul] at h0 h1 h2 h3
  unfold mainResult
  rw [hs, hp]
  simp only [Option.bind_eq_bind, Option.some_bind, List.mapM_cons, List.mapM_nil, h0, h1,
    h2, h3, Option.pure_def]

theorem mainResult_Mat0 (N : Nat) (hN : 16 ≤ N) :
    mainResult N Mat0 vect0 = some [80, 90, 100, 110] := by
  rw [mainResult_four N Mat0 vect0 (by decide) (by decide) (by decide) hN]
  decide

/-- The operation log of `main` does not depend on the data. -/
theorem mainEval_snd (ctVect ctMat : List R) :
    (mainEval ctVect ctMat).2
      = [EvalOp.MulRelinNew, EvalOp.RotateNew 1, EvalOp.RotateNew 1, EvalOp.RotateNew 1,
          EvalOp.Add, EvalOp.Add, EvalOp.Add] := by
  simp [mainEval, mainReduce, Evaluator.MulRelinNew, Evaluator.RotateNew, Evaluator.Add]

theorem mainRun_snd (N : Nat) (M : List (List R)) (v : List R) (out : List R × List EvalOp)
    (h : mainRun N M v = some out) :
    out.2
      = [EvalOp.MulRelinNew, EvalOp.RotateNew 1, EvalOp.RotateNew 1, EvalOp.RotateNew 1,
          EvalOp.Add, EvalOp.Add, EvalOp.Add] := by
  simp only [mainRun, Option.bind_eq_bind, Option.bind_eq_some, Option.some.injEq] at h
  obtain ⟨F, _, T, _, eF, _, eT, _, rfl⟩ := h
  exact mainEval_snd eT eF

/-- Whenever `main` reaches decryption, the evaluator calls it has issued are one
product, three rotations by one slot and three additions, in this order. -/
theorem mainOps_eq (N : Nat) (M : List (List R)) (v : List R) :
    mainOps N M v
      = (mainHave N M v).map fun _ =>
          [EvalOp.MulRelinNew, EvalOp.RotateNew 1, EvalOp.RotateNew 1, EvalOp.RotateNew 1,
            EvalOp.Add, EvalOp.Add, EvalOp.Add] := by
  unfold mainOps mainHave
  cases h : mainRun N M v with
  | none => rfl
  | some out => simp [mainRun_snd N M v out h]

end Pipeline

/-! ## Lemmas on the inverse layout map -/

section Unflatten

variable {α β ι : Type}

theorem mapM_option_congr (f g : ι → Option β) (l : List ι) (h : ∀ i ∈ l, f i = g i) :
    l.mapM f = l.mapM g := by
  induction l with
  | nil => rfl
  | cons a t ih =>
    have ht : ∀ i ∈ t, f i = g i := fun i hi => h i (List.mem_cons_of_mem a hi)
    rw [List.mapM_cons, List.mapM_cons, h a (List.mem_cons_self a t), ih ht]

theorem range_mapM_getElem?_take (xs : List α) (m : Nat) (hm : m ≤ xs.length) :
    (List.range m).mapM (fun i => xs[i]?) = some (xs.take m) := by
  induction m with
  | zero => rfl
  | succ m ih =>
    have hlt : m < xs.length := by omega
    rw [List.range_succ, List.mapM_append, ih (by omega), List.take_succ,
      List.mapM_cons, List.mapM_nil, List.getElem?_eq_getElem hlt]
    rfl

/-- Reading a list back index by index gives the list. -/
theorem range_mapM_getElem? (xs : List α) :
    (List.range xs.length).mapM (fun i => xs[i]?) = some xs := by
  rw [range_mapM_getElem?_take xs xs.length (Nat.le_refl _), List.take_length]

/-- The inverse layout map undoes the column-major concatenation. -/
theorem unflatten_columns (M : List (List α)) (k n : Nat) (hlen : M.length = k)
    (hrect : ∀ r ∈ M, r.length = n) :
    unflatten k n ((List.range n).map fun col => columnCells M k col).flatten = some M := by
  unfold unflatten
  have hrow : ∀ row ∈ List.range k,
      ((List.range n).mapM fun col =>
          ((List.range n).map fun col => columnCells M k col).flatten[col * k + row]?)
        = M[row]? := by
    intro row hrow
    have hrow1 : row < k := List.mem_range.1 hrow
    have hrow2 : row < M.length := by omega
    have hinner : ∀ col ∈ List.range n,
        ((List.range n).map fun col => columnCells M k col).flatten[col * k + row]?
          = (M[row])[col]? := by
      intro col hcol
      rw [columns_getElem? M k n hlen hrect row col hrow1 (List.mem_range.1 hcol)]
      unfold cell
      rw [List.getElem?_eq_getElem hrow2]
      rfl
    rw [mapM_option_congr _ _ _ hinner, List.getElem?_eq_getElem hrow2,
      ← hrect _ (List.getElem_mem hrow2)]
    exact range_mapM_getElem? _
  rw [mapM_option_congr _ _ _ hrow, ← hlen]
  exact range_mapM_getElem? M

end Unflatten

/-! ## Further lemmas on the reduction and on the literal input of `main` -/

section ReduceSpec

variable {R : Type} [CommSemiring R]

theorem windowSum_four (p : List R) (j : Nat) (hj : j < p.length) :
    windowSum 4 p j
      = p[j]?.getD 0 + p[(j + 1) % p.length]?.getD 0
          + p[(j + 2) % p.length]?.getD 0 + p[(j + 3) % p.length]?.getD 0 := by
  have hr : List.range 4 = [0, 1, 2, 3] := by decide
  unfold windowSum
  rw [hr]
  simp only [List.map_cons, List.map_nil, List.sum_cons, List.sum_nil, Nat.add_zero,
    Nat.mod_eq_of_lt hj]
  ring

theorem blockSum_four (p : List R) (j : Nat) (h4 : 4 ∣ j) :
    blockSum 4 p j
      = p[j]?.getD 0 + p[j + 1]?.getD 0 + p[j + 2]?.getD 0 + p[j + 3]?.getD 0 := by
  have hr : List.range 4 = [0, 1, 2, 3] := by decide
  unfold blockSum
  rw [hr, Nat.div_mul_cancel h4]
  simp only [List.map_cons, List.map_nil, List.sum_cons, List.sum_nil, Nat.add_zero]
  ring

theorem rotateSumLinearScan_four (p : List R) :
    rotateSumLinearScan 4 1 p
      = List.zipWith (fun x y => x + y)
          (List.zipWith (fun x y => x + y)
            (List.zipWith (fun x y => x + y) p (p.rotate 1)) (p.rotate 2)) (p.rotate 3) := by
  have hr : List.range' 1 (4 - 1) = [1, 2, 3] := by decide
  unfold rotateSumLinearScan
  rw [hr]
  rfl

theorem mainHave_Mat0 (N : Nat) (hN : 16 ≤ N) : ∃ s, mainHave N Mat0 vect0 = some s := by
  obtain ⟨s, hs, _⟩ := mainHave_four N Mat0 vect0 (by decide) (by decide) (by decide) hN
  exact ⟨s, hs⟩

theorem mainOps_Mat0 (N : Nat) (hN : 16 ≤ N) :
    mainOps N Mat0 vect0
      = some [EvalOp.MulRelinNew, EvalOp.RotateNew 1, EvalOp.RotateNew 1, EvalOp.RotateNew 1,
          EvalOp.Add, EvalOp.Add, EvalOp.Add] := by
  obtain ⟨s, hs⟩ := mainHave_Mat0 N hN
  rw [mainOps_eq, hs]
  rfl

end ReduceSpec

/-! ## The claims -/

section Claims

/-- C1 (counterexample): on the 2×2 matrix `[[1,1],[1,1]]` and the vector `[1,1]` with
16 slots, slot `0*2` of the decoded result of `main` is 4 (the three hard-coded
rotations add four product slots, i.e. both columns), while the dot product of column
0 with the vector is 2. -/
theorem mainHave_column_sum_fails_for_two :
    (mainHave 16 [[1, 1], [1, 1]] [(1 : ℤ), 1]).bind (fun s => s[0 * 2]?) = some 4
      ∧ columnDot [[1, 1], [1, 1]] [(1 : ℤ), 1] 2 0 = 2
      ∧ (mainHave 16 [[1, 1], [1, 1]] [(1 : ℤ), 1]).bind (fun s => s[0 * 2]?)
          ≠ some (columnDot [[1, 1], [1, 1]] [(1 : ℤ), 1] 2 0) := by
  decide

/-- C1 (amended): for `k = 4`, and for `k = 1`, every `k × k` matrix `M` and vector `v`
of length `k`, with `k*k ≤ N` and at least 4 slots, the pipeline of `main` yields for
every column `c < k` the value `Σ_{r<k} M[r][c] * v[r]` at slot `c*k`. -/
theorem mainHave_column_sums {R : Type} [CommSemiring R] (N k : Nat) (M : List (List R))
    (v : List R) (hk : k = 1 ∨ k = 4) (hN4 : 4 ≤ N) (hN : k * k ≤ N) (hlen : M.length = k)
    (hrect : ∀ r ∈ M, r.length = k) (hv : v.length = k) :
    ∃ s, mainHave N M v = some s ∧ ∀ c, c < k → s[c * k]? = some (columnDot M v k c) := by
  rcases hk with h1 | h4
  · subst h1
    obtain ⟨s, hs, _, hslot⟩ := mainHave_one N M v hlen hrect hv hN4
    exact ⟨s, hs, hslot⟩
  · subst h4
    obtain ⟨s, hs, _, hslot⟩ := mainHave_four N M v hlen hrect hv hN
    exact ⟨s, hs, hslot⟩

/-- Instance of the amended C1 at the literal input of `main` with 16 slots. -/
theorem mainHave_column_sums_witness :
    ∃ s, mainHave 16 Mat0 vect0 = some s
      ∧ ∀ c, c < 4 → s[c * 4]? = some (columnDot Mat0 vect0 4 c) :=
  mainHave_column_sums 16 4 Mat0 vect0 (Or.inr rfl) (by decide) (by decide) (by decide)
    (by decide) (by decide)

/-- C2: for a non-empty rectangular matrix `M` with `k` rows and `n` columns,
`flatten2DArrayCol M` succeeds, has length `k*n`, and its element at index
`col*k + row` is `M[row][col]` for every `row < k` and `col < n`. -/
theorem flatten2DArrayCol_column_major {α : Type} (M : List (List α)) (k n : Nat)
    (hk : 0 < k) (hlen : M.length = k) (hrect : ∀ r ∈ M, r.length = n) :
    ∃ s, flatten2DArrayCol M = some s ∧ s.length = k * n ∧
      ∀ row col, row < k → col < n →
        ∃ x, cell M row col = some x ∧ s[col * k + row]? = some x := by
  refine ⟨_, flatten2DArrayCol_of_rect M k n hk hlen hrect, columns_length M k n hlen hrect, ?_⟩
  intro row col hrow hcol
  obtain ⟨x, hx⟩ := Option.isSome_iff_exists.1
    (cell_isSome_of_rect M k n hlen hrect row col hrow hcol)
  exact ⟨x, hx, by rw [columns_getElem? M k n hlen hrect row col hrow hcol, hx]⟩

/-- Instance of C2 at the 2×3 matrix `[[1,2,3],[4,5,6]]`. -/
theorem flatten2DArrayCol_column_major_witness :
    ∃ s, flatten2DArrayCol [[1, 2, 3], [4, 5, (6 : ℤ)]] = some s ∧ s.length = 2 * 3 ∧
      ∀ row col, row < 2 → col < 3 →
        ∃ x, cell [[1, 2, 3], [4, 5, (6 : ℤ)]] row col = some x
          ∧ s[col * 2 + row]? = some x :=
  flatten2DArrayCol_column_major [[1, 2, 3], [4, 5, (6 : ℤ)]] 2 3 (by decide) (by decide)
    (by decide)

/-- C3 (counterexample): for `arr = [1,2,3,4]` and `k = 2^62` the `int` product
`n*k = 2^64` wraps to 0, so `make` gives an empty slice and the first slice
expression `result[0:4]` panics; `repeatArray` returns no vector of length `4 * 2^62`. -/
theorem repeatArray_overflow_panics :
    repeatArray ([1, 2, 3, 4] : List ℤ) 4611686018427387904 = none := by
  have hk : (4611686018427387904 : Int).toNat = 4611686018427387903 + 1 := by decide
  have hlen : wrap64 ((([1, 2, 3, 4] : List ℤ).length : Int) * 4611686018427387904) = 0 := by
    decide
  have hcopy : copySlice (List.replicate (0 : Int).toNat (0 : ℤ))
      (wrap64 (0 * (([1, 2, 3, 4] : List ℤ).length : Int)))
      (wrap64 ((0 + 1) * (([1, 2, 3, 4] : List ℤ).length : Int))) [1, 2, 3, 4] = none := by
    decide
  have hnn : ¬ (0 : Int) < 0 := by decide
  unfold repeatArray
  simp only []
  rw [hlen, if_neg hnn, hk, repeatLoop, hcopy]
  rfl

/-- C3 (amended): for every vector `arr` of length `n` and every `k ≥ 1` whose product
`n*k` is below `2^63` (no overflow of the 64-bit `int`), `repeatArray arr k` succeeds,
has length `n*k`, is `arr` concatenated with itself `k` times, and its element at
every index `i < n*k` is `arr[i mod n]`. -/
theorem repeatArray_tiles {α : Type} [Zero α] (arr : List α) (k : Int) (hk : 1 ≤ k)
    (hb : (arr.length : Int) * k < 9223372036854775808) :
    ∃ s, repeatArray arr k = some s ∧ (s.length : Int) = (arr.length : Int) * k
      ∧ s = (List.replicate k.toNat arr).flatten
      ∧ ∀ i : Nat, (i : Int) < (arr.length : Int) * k →
          ∃ x, arr[i % arr.length]? = some x ∧ s[i]? = some x := by
  obtain ⟨K, rfl⟩ := Int.eq_ofNat_of_zero_le (by omega : 0 ≤ k)
  have hb2 : ((arr.length * K : Nat) : Int) < 9223372036854775808 := by
    push_cast
    exact hb
  refine ⟨_, repeatArray_eq arr K hb2, ?_, ?_, ?_⟩
  · rw [replicate_flatten_length]
    push_cast
    ring
  · rw [Int.toNat_ofNat]
  · intro i hi
    have hi2 : i < arr.length * K := by
      have : ((i : Int)) < ((arr.length * K : Nat) : Int) := by
        push_cast
        exact hi
      exact Int.ofNat_lt.1 this
    have hn : 0 < arr.length := by
      rcases Nat.eq_zero_or_pos arr.length with h | h
      · rw [h] at hi2; simp at hi2
      · exact h
    have hmod : i % arr.length < arr.length := Nat.mod_lt _ hn
    refine ⟨arr[i % arr.length], List.getElem?_eq_getElem hmod, ?_⟩
    rw [replicate_flatten_getElem? arr K i hi2, List.getElem?_eq_getElem hmod]

/-- Instance of the amended C3 at `arr = [1,2,3]`, `k = 2`. -/
theorem repeatArray_tiles_witness :
    ∃ s, repeatArray [1, 2, (3 : ℤ)] 2 = some s
      ∧ (s.length : Int) = ([1, 2, (3 : ℤ)].length : Int) * 2
      ∧ s = (List.replicate (2 : Int).toNat [1, 2, (3 : ℤ)]).flatten
      ∧ ∀ i : Nat, (i : Int) < ([1, 2, (3 : ℤ)].length : Int) * 2 →
          ∃ x, [1, 2, (3 : ℤ)][i % [1, 2, (3 : ℤ)].length]? = some x ∧ s[i]? = some x :=
  repeatArray_tiles [1, 2, (3 : ℤ)] 2 (by decide) (by decide)

/-- C4 (counterexample): for the 8-slot vector `p = [1,0,0,0,0,0,0,0]`, slot 1 of the
reduced vector is `p[1]+p[2]+p[3]+p[4] = 0`, while the sum of its block `p[0..3]`
is 1. -/
theorem mainReduce_slot_not_block_sum :
    (mainReduce ([1, 0, 0, 0, 0, 0, 0, 0] : List ℤ) []).1[1]? = some 0
      ∧ blockSum 4 ([1, 0, 0, 0, 0, 0, 0, 0] : List ℤ) 1 = 1
      ∧ (mainReduce ([1, 0, 0, 0, 0, 0, 0, 0] : List ℤ) []).1[1]?
          ≠ some (blockSum 4 ([1, 0, 0, 0, 0, 0, 0, 0] : List ℤ) 1) := by
  decide

/-- C4 (amended): for every slot vector `p` whose length `N` is divisible by 4, the
rotate-and-add reduction of `main` produces a vector in which every slot `j` holds the
cyclic window sum `p[j] + p[(j+1) mod N] + p[(j+2) mod N] + p[(j+3) mod N]`; for every
slot `j` that is the first slot of its block (`4 ∣ j`) this is the sum of the 4 slots
of that block, `Σ_{r<4} p[⌊j/4⌋*4 + r]`. -/
theorem mainReduce_window_and_block_start {R : Type} [CommSemiring R] (p : List R)
    (log : List EvalOp) (j : Nat) (hN : 4 ∣ p.length) (hj : j < p.length) :
    (mainReduce p log).1[j]? = some (windowSum 4 p j)
      ∧ (4 ∣ j → (mainReduce p log).1[j]? = some (blockSum 4 p j)) := by
  refine ⟨?_, ?_⟩
  · rw [mainReduce_getElem? p log j hj, windowSum_four p j hj]
  · intro h4
    have h1 : (j + 1) % p.length = j + 1 := Nat.mod_eq_of_lt (by omega)
    have h2 : (j + 2) % p.length = j + 2 := Nat.mod_eq_of_lt (by omega)
    have h3 : (j + 3) % p.length = j + 3 := Nat.mod_eq_of_lt (by omega)
    rw [mainReduce_getElem? p log j hj, blockSum_four p j h4, h1, h2, h3]

/-- Instance of the amended C4 at `p = [1,...,8]`, `j = 4`. -/
theorem mainReduce_window_and_block_start_witness :
    (mainReduce ([1, 2, 3, 4, 5, 6, 7, 8] : List ℤ) []).1[4]?
        = some (windowSum 4 ([1, 2, 3, 4, 5, 6, 7, 8] : List ℤ) 4)
      ∧ (4 ∣ 4 → (mainReduce ([1, 2, 3, 4, 5, 6, 7, 8] : List ℤ) []).1[4]?
          = some (blockSum 4 ([1, 2, 3, 4, 5, 6, 7, 8] : List ℤ) 4)) :=
  mainReduce_window_and_block_start [1, 2, 3, 4, 5, 6, 7, 8] [] 4 (by decide) (by decide)

/-- C5 (counterexample): with `8192 = 2^13` slots (`LogN = 14`), the four values `main`
extracts for its hard-coded matrix and vector are not `[68, 84, 100, 116]`. -/
theorem mainResult_literal_ne_spec_values :
    mainResult 8192 Mat0 vect0 ≠ some [68, 84, 100, 116] := by
  rw [mainResult_Mat0 8192 (by decide)]
  decide

/-- C5 (amended): for the matrix and the vector hard-coded in `main` and any slot count
`N ≥ 16`, the four values `main` extracts (slots 0, 4, 8, 12 of the reduced slot
vector, computed exactly) are `[80, 90, 100, 110]`. -/
theorem mainResult_literal (N : Nat) (hN : 16 ≤ N) :
    mainResult N Mat0 vect0 = some [80, 90, 100, 110] :=
  mainResult_Mat0 N hN

/-- Instance of the amended C5 at 8192 slots. -/
theorem mainResult_literal_witness :
    mainResult 8192 Mat0 vect0 = some [80, 90, 100, 110] :=
  mainResult_literal 8192 (by decide)

/-- C6: on a non-empty `k × n` matrix `M` with `n ≥ 1`, un-flattening the result of
`flatten2DArrayCol` gives back `M`; consequently a `k × n` matrix with the same
flattening as `M` is `M`. -/
theorem unflatten_flatten2DArrayCol {α : Type} (M : List (List α)) (k n : Nat)
    (hk : 0 < k) (_hn : 1 ≤ n) (hlen : M.length = k) (hrect : ∀ r ∈ M, r.length = n) :
    (flatten2DArrayCol M).bind (unflatten k n) = some M
      ∧ ∀ M2 : List (List α), M2.length = k → (∀ r ∈ M2, r.length = n) →
          flatten2DArrayCol M2 = flatten2DArrayCol M → M2 = M := by
  have hround : ∀ A : List (List α), A.length = k → (∀ r ∈ A, r.length = n) →
      (flatten2DArrayCol A).bind (unflatten k n) = some A := by
    intro A hA hAr
    rw [flatten2DArrayCol_of_rect A k n hk hA hAr]
    exact unflatten_columns A k n hA hAr
  refine ⟨hround M hlen hrect, ?_⟩
  intro M2 hlen2 hrect2 heq
  have h2 := hround M2 hlen2 hrect2
  rw [heq, hround M hlen hrect] at h2
  exact (Option.some.inj h2).symm

/-- Instance of C6 at the 2×3 matrix `[[1,2,3],[4,5,6]]`. -/
theorem unflatten_flatten2DArrayCol_witness :
    (flatten2DArrayCol [[1, 2, 3], [4, 5, (6 : ℤ)]]).bind (unflatten 2 3)
        = some [[1, 2, 3], [4, 5, (6 : ℤ)]]
      ∧ ∀ M2 : List (List ℤ), M2.length = 2 → (∀ r ∈ M2, r.length = 3) →
          flatten2DArrayCol M2 = flatten2DArrayCol [[1, 2, 3], [4, 5, (6 : ℤ)]] →
          M2 = [[1, 2, 3], [4, 5, (6 : ℤ)]] :=
  unflatten_flatten2DArrayCol [[1, 2, 3], [4, 5, (6 : ℤ)]] 2 3 (by decide) (by decide)
    (by decide) (by decide)

/-- C7 (counterexample): the empty matrix is flattened to the empty vector without any
error, and the ragged matrix `[[1],[2,3]]` is flattened to `[1,2]` without any error. -/
theorem flatten2DArrayCol_accepts_empty_and_ragged :
    flatten2DArrayCol ([] : List (List ℤ)) = some []
      ∧ flatten2DArrayCol [[1], [2, (3 : ℤ)]] = some [1, 2] := by
  decide

/-- C7 (amended): `flatten2DArrayCol` has no shape-error result.  It returns the
empty vector for the empty matrix, succeeds on every non-empty rectangular matrix, and
fails (by an out-of-range access) exactly when some row is shorter than the first row.
When no row is shorter than the first row, whose length is `n`, the result is the one
for the matrix with every row cut to length `n`: for `k ≥ 1` rows it has length `k*n`
and holds `arr[row][col]` at index `col*k + row` for `row < k`, `col < n`, so the
entries of longer rows beyond column `n` are ignored. -/
theorem flatten2DArrayCol_failure {α : Type} (arr : List (List α)) :
    flatten2DArrayCol ([] : List (List α)) = some []
      ∧ (∀ k n : Nat, 0 < k → arr.length = k → (∀ r ∈ arr, r.length = n) →
          (flatten2DArrayCol arr).isSome)
      ∧ (flatten2DArrayCol arr = none
          ↔ ∃ row ∈ arr, row.length < (arr.headD []).length)
      ∧ ((∀ row ∈ arr, (arr.headD []).length ≤ row.length) →
          flatten2DArrayCol arr
            = flatten2DArrayCol (arr.map (List.take (arr.headD []).length)))
      ∧ (0 < arr.length → (∀ row ∈ arr, (arr.headD []).length ≤ row.length) →
          ∃ s, flatten2DArrayCol arr = some s
            ∧ s.length = arr.length * (arr.headD []).length
            ∧ ∀ row col, row < arr.length → col < (arr.headD []).length →
                ∃ x, cell arr row col = some x ∧ s[col * arr.length + row]? = some x) := by
  refine ⟨rfl, ?_, flatten2DArrayCol_eq_none_iff arr, flatten2DArrayCol_map_take arr, ?_⟩
  · intro k n hk hlen hrect
    rw [flatten2DArrayCol_of_rect arr k n hk hlen hrect]
    rfl
  · intro hk hge
    refine ⟨_, flatten2DArrayCol_of_ge arr arr.length _ hk rfl rfl hge,
      columns_length_of_ge arr arr.length _ rfl hge, ?_⟩
    intro row col hrow hcol
    obtain ⟨x, hx⟩ := Option.isSome_iff_exists.1
      (cell_isSome_of_ge arr arr.length _ rfl hge row col hrow hcol)
    exact ⟨x, hx, by rw [columns_getElem?_of_ge arr arr.length _ rfl hge row col hrow hcol, hx]⟩

/-- C8 (counterexample): with 16 slots, the evaluator calls `main` issues for its
hard-coded input are not the sequence multiply-relinearize, rescale,
(rotate, add) × (len(Mat) − 1). -/
theorem mainOps_ne_specOpSequence :
    mainOps 16 Mat0 vect0 ≠ some (specOpSequence Mat0.length) := by
  decide

/-- C8 (amended): for its hard-coded input and any slot count `N ≥ 16`, the evaluator
calls `main` issues between encryption and decryption are, in this order: one
multiply-relinearize, three rotations by 1, three additions; there is no rescale. -/
theorem mainOps_literal (N : Nat) (hN : 16 ≤ N) :
    mainOps N Mat0 vect0
      = some [EvalOp.MulRelinNew, EvalOp.RotateNew 1, EvalOp.RotateNew 1, EvalOp.RotateNew 1,
          EvalOp.Add, EvalOp.Add, EvalOp.Add] :=
  mainOps_Mat0 N hN

/-- Instance of the amended C8 at 8192 slots. -/
theorem mainOps_literal_witness :
    mainOps 8192 Mat0 vect0
      = some [EvalOp.MulRelinNew, EvalOp.RotateNew 1, EvalOp.RotateNew 1, EvalOp.RotateNew 1,
          EvalOp.Add, EvalOp.Add, EvalOp.Add] :=
  mainOps_literal 8192 (by decide)

/-- C9: for every 4×4 matrix `M`, every vector `v` of length 4 and every slot count
`N ≥ 16`, the four values `main` extracts at slots 0, 4, 8, 12 are
`Σ_{r<4} M[r][c] * v[r]` for `c = 0, 1, 2, 3`. -/
theorem mainResult_eq_transpose_mulVec {R : Type} [CommSemiring R] (N : Nat)
    (M : List (List R)) (v : List R) (hlen : M.length = 4) (hrect : ∀ r ∈ M, r.length = 4)
    (hv : v.length = 4) (hN : 16 ≤ N) :
    mainResult N M v = some ((List.range 4).map fun c => columnDot M v 4 c) := by
  rw [mainResult_four N M v hlen hrect hv hN]
  rfl

/-- Instance of C9 at the literal input of `main` with 16 slots. -/
theorem mainResult_eq_transpose_mulVec_witness :
    mainResult 16 Mat0 vect0 = some ((List.range 4).map fun c => columnDot Mat0 vect0 4 c) :=
  mainResult_eq_transpose_mulVec 16 Mat0 vect0 (by decide) (by decide) (by decide)
    (by decide)

/-- C10: the reduction coded in `main` (three chained rotations by 1, then three
additions) computes the same slot vector as the linear scan with `k = 4` and
`step = 1`, and every slot `j` of it is `Σ_{i<4} p[(j+i) mod N]`. -/
theorem mainReduce_eq_rotateSumLinearScan {R : Type} [CommSemiring R] (p : List R)
    (log : List EvalOp) :
    (mainReduce p log).1 = rotateSumLinearScan 4 1 p
      ∧ ∀ j, j < p.length → (mainReduce p log).1[j]? = some (windowSum 4 p j) := by
  refine ⟨?_, ?_⟩
  · rw [mainReduce_fst, rotateSumLinearScan_four]
  · intro j hj
    rw [mainReduce_getElem? p log j hj, windowSum_four p j hj]

end Claims

end HadesFL
